import Mathlib

/-!
# Verification of the zbus `Variant` codec and the `zbus_names` validators

Shallow embedding of:

* `src/variant.rs` — the reflective `Variant` type: construction from data
  (`from_data` with the `copy_*` helpers), the `encode_*` helpers, and the
  typed accessors `get_string` / `get_u32`;
* `zbus_names/src/{interface,error,member,property,unique,well_known}_name.rs`
  — the per-kind name validators built from `winnow` combinators.

Byte slices (`&[u8]`, `Vec<u8>`) are embedded as `List Nat`; Rust strings are
their UTF-8 byte lists (a Rust `String`/`&str` is exactly a byte buffer that
passed UTF-8 validation, so `str::from_utf8` returns its input bytes).
Machine integers are `Nat` with explicit `% 2 ^ w` where casts can wrap.
-/

/-! ## UTF-8 validation (model of `core::str::from_utf8`'s acceptance) -/

/-- The ranges the bytes following a UTF-8 leading byte must fall into, or
`none` for an invalid leading byte. The table is that of `core::str`'s UTF-8
validation: overlong encodings, surrogates and values above U+10FFFF are
rejected. -/
def utf8Lead (b : Nat) : Option (List (Nat × Nat)) :=
  if b ≤ 0x7F then some []
  else if 0xC2 ≤ b && b ≤ 0xDF then some [(0x80, 0xBF)]
  else if b = 0xE0 then some [(0xA0, 0xBF), (0x80, 0xBF)]
  else if (0xE1 ≤ b && b ≤ 0xEC) || (0xEE ≤ b && b ≤ 0xEF) then
    some [(0x80, 0xBF), (0x80, 0xBF)]
  else if b = 0xED then some [(0x80, 0x9F), (0x80, 0xBF)]
  else if b = 0xF0 then some [(0x90, 0xBF), (0x80, 0xBF), (0x80, 0xBF)]
  else if 0xF1 ≤ b && b ≤ 0xF3 then some [(0x80, 0xBF), (0x80, 0xBF), (0x80, 0xBF)]
  else if b = 0xF4 then some [(0x80, 0x8F), (0x80, 0xBF), (0x80, 0xBF)]
  else none

/-- Walk the input against the pending continuation-byte ranges, consulting
`utf8Lead` at each character boundary. -/
def utf8Scan : List Nat → List (Nat × Nat) → Bool
  | [], exp => exp.isEmpty
  | b :: rest, (lo, hi) :: exp => (lo ≤ b && b ≤ hi) && utf8Scan rest exp
  | b :: rest, [] =>
    match utf8Lead b with
    | some exp2 => utf8Scan rest exp2
    | none => false

/-- A byte list is valid UTF-8: model of `str::from_utf8(..).is_ok()`. -/
def utf8Valid (l : List Nat) : Bool := utf8Scan l []

/-! ## `src/variant.rs` -/

/-- `enum VariantError` of `src/variant.rs`. Note there is no variant for
excess data: the decoder has no way to report trailing bytes. -/
inductive VariantError
  | IncorrectType
  | InvalidUtf8
  | InsufficientData
  | UnsupportedType
deriving DecidableEq, Repr

/-- `struct Variant { signature: String, value: Vec<u8> }`. The signature is
only ever compared against the literals `"u"`, `"s"`, `"o"`, `"g"`, so the
Rust `String` is kept as a Lean `String`; the value bytes are a `List Nat`. -/
structure Variant where
  signature : String
  value : List Nat
deriving DecidableEq, Repr

instance {ε α : Type} [DecidableEq ε] [DecidableEq α] : DecidableEq (Except ε α) := fun a b =>
  match a, b with
  | .ok a, .ok b =>
    match decEq a b with
    | isTrue h => isTrue (h ▸ rfl)
    | isFalse h => isFalse (fun hh => h (Except.ok.inj hh))
  | .ok _, .error _ => isFalse (fun hh => Except.noConfusion hh)
  | .error _, .ok _ => isFalse (fun hh => Except.noConfusion hh)
  | .error e, .error f =>
    match decEq e f with
    | isTrue h => isTrue (h ▸ rfl)
    | isFalse h => isFalse (fun hh => h (Except.error.inj hh))

/-- `byteorder::NativeEndian::read_u32` on the first four bytes (the reference
platform is little-endian). Callers in `variant.rs` check `len >= 4` first,
so the catch-all arm is never reached from the embedded code. -/
def read_u32_ne : List Nat → Nat
  | b0 :: b1 :: b2 :: b3 :: _ => b0 + 256 * b1 + 65536 * b2 + 16777216 * b3
  | _ => 0

/-- `fn copy_u32` of `src/variant.rs`. -/
def copy_u32 (data : List Nat) : Except VariantError (List Nat) :=
  if data.length < 4 then .error .InsufficientData
  else .ok (data.take 4)

/-- `fn copy_string` of `src/variant.rs`: a 4-byte length prefix, then
`length + 5` total bytes are required and copied (prefix + content + NUL). -/
def copy_string (data : List Nat) : Except VariantError (List Nat) :=
  if data.length < 4 then .error .InsufficientData
  else
    let last_index := read_u32_ne data + 5
    if data.length < last_index then .error .InsufficientData
    else .ok (data.take last_index)

/-- `fn copy_signature` of `src/variant.rs`: a 1-byte length prefix, then
`length + 1` total bytes are required and copied (prefix + content — the
trailing NUL is neither required nor copied). -/
def copy_signature (data : List Nat) : Except VariantError (List Nat) :=
  if data.length < 1 then .error .InsufficientData
  else
    let last_index := data.headI + 1
    if data.length < last_index then .error .InsufficientData
    else .ok (data.take last_index)

/-- `fn encode_u32` of `src/variant.rs`: `value.to_ne_bytes()`, little-endian
on the reference platform. Taking `% 256` per byte makes the definition total
on `Nat` and agrees with the `u32` bytes for every `value < 2 ^ 32`. -/
def encode_u32 (value : Nat) : List Nat :=
  [value % 256, value / 256 % 256, value / 65536 % 256, value / 16777216 % 256]

/-- `fn encode_string` of `src/variant.rs`: `(len as u32)` length prefix, the
UTF-8 bytes, one trailing NUL (the `as u32` wrap is the `% 256` structure of
`encode_u32`). -/
def encode_string (value : List Nat) : List Nat :=
  encode_u32 value.length ++ value ++ [0]

/-- `fn encode_signature` of `src/variant.rs`: `(len as u8)` length prefix,
the bytes, one trailing NUL. -/
def encode_signature (value : List Nat) : List Nat :=
  value.length % 256 :: (value ++ [0])

/-- `Variant::from_data` of `src/variant.rs`. -/
def Variant.from_data (data : List Nat) (signature : String) :
    Except VariantError Variant :=
  (if signature = "u" then copy_u32 data
   else if signature = "s" ∨ signature = "o" then copy_string data
   else if signature = "g" then copy_signature data
   else .error .UnsupportedType).map
    (fun value => { value := value, signature := signature })

/-- `Variant::from_string`. -/
def Variant.from_string (string : List Nat) : Variant :=
  { value := encode_string string, signature := "s" }

/-- `Variant::from_object_path`. -/
def Variant.from_object_path (path : List Nat) : Variant :=
  { value := encode_string path, signature := "o" }

/-- `Variant::from_signature_string`. -/
def Variant.from_signature_string (signature_string : List Nat) : Variant :=
  { value := encode_signature signature_string, signature := "g" }

/-- `Variant::from_u32`. -/
def Variant.from_u32 (value : Nat) : Variant :=
  { value := encode_u32 value, signature := "u" }

/-- `str::from_utf8(..).map(String::from).map_err(|_| InvalidUtf8)` on bytes:
a Rust string is its validated byte buffer. -/
def from_utf8_res (data : List Nat) : Except VariantError (List Nat) :=
  if utf8Valid data then .ok data else .error .InvalidUtf8

/-- `Variant::get_string`: skip the length prefix (4 bytes for `s`/`o`, 1 for
`g`) and UTF-8-validate the rest of the value. Rust's `&self.value[i..]`
would panic for `i > len`, which no variant built by this module's
constructors can trigger (their values always hold at least the prefix). -/
def Variant.get_string (v : Variant) : Except VariantError (List Nat) :=
  if v.signature = "s" ∨ v.signature = "o" then from_utf8_res (v.value.drop 4)
  else if v.signature = "g" then from_utf8_res (v.value.drop 1)
  else .error .IncorrectType

/-- `Variant::get_u32`. -/
def Variant.get_u32 (v : Variant) : Except VariantError Nat :=
  if v.signature ≠ "u" ∨ v.value.length < 4 then .error .IncorrectType
  else .ok (read_u32_ne v.value)

/-- `Variant::len`. -/
def Variant.len (v : Variant) : Nat := v.value.length

/-! ## `zbus_names`: the winnow-combinator name validators

The validators are `winnow` parsers run with `Parser::parse`, which demands
that the whole input be consumed. The embedding mirrors the combinators:

* `one_of(filter)` followed by `take_while(0.., filter2)` (an element of an
  interface / well-known / member name) is `parseElement first sub`: the
  head byte must satisfy `first`, then the maximal run of `sub` bytes is
  consumed greedily;
* `take_while(1.., filter)` (an element of a unique name) is
  `parseElement filter filter`, since after one mandatory `filter` byte the
  greedy tail consumes the remaining run of `filter` bytes;
* `separated(2.., element, b'.')` parses one element and then, as long as a
  separator followed by an element parses, consumes both (backtracking off a
  trailing separator); it succeeds when at least two elements were read.
  `sepTailF` is its loop over `(sep element)*`, made total with a fuel
  argument that bounds the number of iterations; one iteration consumes at
  least the separator byte, so fuel = input length always suffices.
-/

/-- winnow `AsChar::is_alpha` on a byte. -/
def is_alpha (b : Nat) : Bool := (65 ≤ b && b ≤ 90) || (97 ≤ b && b ≤ 122)

/-- winnow `AsChar::is_alphanum` on a byte. -/
def is_alphanum (b : Nat) : Bool := is_alpha b || (48 ≤ b && b ≤ 57)

/-- `(one_of(first), take_while(0.., sub))`: some remaining input on success. -/
def parseElement (first sub : Nat → Bool) : List Nat → Option (List Nat)
  | [] => none
  | b :: rest => if first b then some (rest.dropWhile sub) else none

/-- The `(sep element)*` loop of `separated`, returning how many further
elements were consumed and the remaining input. `fuel` only forces
termination: every successful iteration consumes at least the separator, so
any `fuel ≥ input.length` computes the loop's true fixpoint. -/
def sepTailF (first sub : Nat → Bool) (sep : Nat) : Nat → List Nat → Nat × List Nat
  | _, [] => (0, [])
  | 0, input => (0, input)
  | fuel + 1, b :: rest =>
    if b = sep then
      match parseElement first sub rest with
      | some rest2 =>
        let r := sepTailF first sub sep fuel rest2
        (r.1 + 1, r.2)
      | none => (0, b :: rest)
    else (0, b :: rest)

/-- `separated(2.., element, sep)`: at least two elements, else failure;
on success the unconsumed input is returned (to be checked against eof by
`Parser::parse`). -/
def separated2 (first sub : Nat → Bool) (sep : Nat) (input : List Nat) :
    Option (List Nat) :=
  match parseElement first sub input with
  | none => none
  | some rest =>
    let r := sepTailF first sub sep rest.length rest
    if 2 ≤ r.1 + 1 then some r.2 else none

/-- The shared tail of every `validate_bytes`: `parser.parse(bytes)` (the
parse result must consume the whole input) `.and_then` the 255-byte cap. -/
def lengthGuard (o : Option (List Nat)) (bytes : List Nat) : Bool :=
  match o with
  | some [] => !(255 < bytes.length)
  | _ => false

/-- First byte of an interface-name element: `one_of((is_alpha, b'_'))`. -/
def ifaceFirst (b : Nat) : Bool := is_alpha b || b == 95

/-- Later bytes of an interface-name element: `(is_alphanum, b'_')`. -/
def ifaceSub (b : Nat) : Bool := is_alphanum b || b == 95

/-- `interface_name::validate_bytes`: `separated(2.., element, b'.')` parsed
against the whole input, then the 255-byte length cap. -/
def interface_name_validate_bytes (bytes : List Nat) : Bool :=
  lengthGuard (separated2 ifaceFirst ifaceSub 46 bytes) bytes

/-- First byte of a well-known-name element: `one_of((is_alpha, b'_', b'-'))`. -/
def wkFirst (b : Nat) : Bool := is_alpha b || b == 95 || b == 45

/-- Later bytes of a well-known-name element: `(is_alphanum, b'_', b'-')`. -/
def wkSub (b : Nat) : Bool := is_alphanum b || b == 95 || b == 45

/-- `well_known_name::validate_bytes`. -/
def well_known_name_validate_bytes (bytes : List Nat) : Bool :=
  lengthGuard (separated2 wkFirst wkSub 46 bytes) bytes

/-- An element byte of a unique name: `(is_alphanum, b'_', b'-')` under
`take_while(1.., ..)`. -/
def uniqueChar (b : Nat) : Bool := is_alphanum b || b == 95 || b == 45

/-- The bytes of `b"org.freedesktop.DBus"`. -/
def busLiteral : List Nat :=
  [111, 114, 103, 46, 102, 114, 101, 101, 100, 101, 115, 107, 116, 111, 112,
   46, 68, 66, 117, 115]

/-- `unique_name::validate_bytes`: `alt((bus_name, peer_name))` where
`bus_name` is the literal tag `b"org.freedesktop.DBus"` (matched as a prefix;
`alt` does not backtrack out of a successful arm) and `peer_name` is `b':'`
followed by `separated(2.., take_while(1.., chars), b'.')`; then eof and the
255-byte cap. -/
def unique_name_validate_bytes (bytes : List Nat) : Bool :=
  let parsed : Option (List Nat) :=
    if busLiteral.isPrefixOf bytes then some (bytes.drop busLiteral.length)
    else
      match bytes with
      | b :: rest => if b = 58 then separated2 uniqueChar uniqueChar 46 rest else none
      | [] => none
  lengthGuard parsed bytes

/-- `member_name::validate_bytes`: a single element, whole input, length cap. -/
def member_name_validate_bytes (bytes : List Nat) : Bool :=
  lengthGuard (parseElement ifaceFirst ifaceSub bytes) bytes

/-- Modelled from the spec: the `zbus_names` crate's `Error` type is not under
`src/` (only its uses are). The validators construct its `InvalidName`
variant (spec §7: "*Name* — invalid bus/interface/member/path/signature
name"); every other kind of the crate's error is collapsed into `Other`. -/
inductive NamesError
  | InvalidName (msg : String)
  | Other (msg : String)
deriving DecidableEq, Repr

/-- `interface_name::validate`: map a parse failure to `Error::InvalidName`. -/
def interface_name_validate (name : List Nat) : Except NamesError Unit :=
  if interface_name_validate_bytes name then .ok ()
  else .error (.InvalidName
    "Invalid interface name. See https://dbus.freedesktop.org/doc/dbus-specification.html#message-protocol-names-interface")

/-- `error_name::validate`: error names reuse `interface_name::validate_bytes`
and map failure to `Error::InvalidName` with their own message. -/
def error_name_validate (name : List Nat) : Except NamesError Unit :=
  if interface_name_validate_bytes name then .ok ()
  else .error (.InvalidName
    "Invalid error name. See https://dbus.freedesktop.org/doc/dbus-specification.html#message-protocol-names-error")

/-- `member_name::validate`. -/
def member_name_validate (name : List Nat) : Except NamesError Unit :=
  if member_name_validate_bytes name then .ok ()
  else .error (.InvalidName
    "Invalid member name. See https://dbus.freedesktop.org/doc/dbus-specification.html#message-protocol-names-member")

/-- `unique_name::validate`. -/
def unique_name_validate (name : List Nat) : Except NamesError Unit :=
  if unique_name_validate_bytes name then .ok ()
  else .error (.InvalidName
    "Invalid unique name. See https://dbus.freedesktop.org/doc/dbus-specification.html#message-protocol-names-bus")

/-- `well_known_name::validate`. -/
def well_known_name_validate (name : List Nat) : Except NamesError Unit :=
  if well_known_name_validate_bytes name then .ok ()
  else .error (.InvalidName
    "Invalid well-known name. See https://dbus.freedesktop.org/doc/dbus-specification.html#message-protocol-names-bus")

/-- `property_name::ensure_correct_property_name`: only emptiness and the
255-byte cap are checked (`name.len()` is the byte length of the `&str`). -/
def ensure_correct_property_name (name : List Nat) : Except NamesError Unit :=
  if name.isEmpty then
    .error (.InvalidName "Invalid property name. It has to be at least 1 character long.")
  else if 255 < name.length then
    .error (.InvalidName "Invalid property name. It can not be longer than 255 characters.")
  else .ok ()

/-- Whether a validation result is a rejection of the `InvalidName` kind. -/
def isInvalidName : Except NamesError Unit → Bool
  | .error (.InvalidName _) => true
  | _ => false

/-! ## Specification-side grammar: dot-separated elements

The spec describes the name grammars by their dot-separated elements. The
elements of a byte string are its maximal `46`-free runs (`splitDots`, the
usual split-on-separator), and `joinDots` is its inverse on `46`-free parts.
-/

/-- Split on `.` (byte 46): the list of dot-separated elements. -/
def splitDots : List Nat → List (List Nat)
  | [] => [[]]
  | b :: rest =>
    if b = 46 then [] :: splitDots rest
    else
      match splitDots rest with
      | p :: ps => (b :: p) :: ps
      | [] => [[b]]

/-- `.`-prepended join of parts, the tail of `joinDots`. -/
def joinTail : List (List Nat) → List Nat
  | [] => []
  | p :: ps => 46 :: (p ++ joinTail ps)

/-- Join parts with `.` separators: the inverse of `splitDots`. -/
def joinDots : List (List Nat) → List Nat
  | [] => []
  | p :: ps => p ++ joinTail ps

/-- A part matches one grammar element: non-empty, head in `first`, tail in
`sub`. -/
def elemMatches (first sub : Nat → Bool) : List Nat → Bool
  | [] => false
  | b :: t => first b && t.all sub

/-- The spec-side dot-grammar: at least two dot-separated elements, each
matching the element classes. -/
def dotGrammar (first sub : Nat → Bool) (bytes : List Nat) : Bool :=
  2 ≤ (splitDots bytes).length && (splitDots bytes).all (elemMatches first sub)

/-! ### Basic facts about `splitDots` / `joinDots` -/

theorem joinTail_cons (p : List Nat) (ps : List (List Nat)) :
    joinTail (p :: ps) = 46 :: joinDots (p :: ps) := rfl

theorem splitDots_ne_nil (l : List Nat) : splitDots l ≠ [] := by
  cases l with
  | nil => simp [splitDots]
  | cons b rest =>
    simp only [splitDots]
    by_cases hb : b = 46
    · simp [hb]
    · simp only [hb, if_false]
      cases h : splitDots rest <;> simp

theorem splitDots_exists_cons (l : List Nat) :
    ∃ p ps, splitDots l = p :: ps := by
  cases h : splitDots l with
  | nil => exact absurd h (splitDots_ne_nil l)
  | cons p ps => exact ⟨p, ps, rfl⟩

theorem joinDots_splitDots (l : List Nat) : joinDots (splitDots l) = l := by
  induction l with
  | nil => rfl
  | cons b rest ih =>
    obtain ⟨p, ps, h⟩ := splitDots_exists_cons rest
    by_cases hb : b = 46
    · subst hb
      rw [show splitDots (46 :: rest) = [] :: splitDots rest from by simp [splitDots], h]
      show 46 :: joinDots (p :: ps) = 46 :: rest
      rw [← h, ih]
    · rw [show splitDots (b :: rest) = (b :: p) :: ps from by simp [splitDots, hb, h]]
      show b :: joinDots (p :: ps) = b :: rest
      rw [← h, ih]

theorem splitDots_no46 {p : List Nat} (h : ∀ b ∈ p, b ≠ 46) : splitDots p = [p] := by
  induction p with
  | nil => rfl
  | cons b t ih =>
    have hb : b ≠ 46 := h b (by simp)
    have ht := ih (fun x hx => h x (by simp [hx]))
    simp [splitDots, hb, ht]

theorem splitDots_append_46 {p : List Nat} (r : List Nat) (h : ∀ b ∈ p, b ≠ 46) :
    splitDots (p ++ 46 :: r) = p :: splitDots r := by
  induction p with
  | nil => simp [splitDots]
  | cons b t ih =>
    have hb : b ≠ 46 := h b (by simp)
    have ht := ih (fun x hx => h x (by simp [hx]))
    simp [splitDots, hb, ht]

theorem splitDots_joinDots {ps : List (List Nat)} (hne : ps ≠ [])
    (h : ∀ p ∈ ps, ∀ b ∈ p, b ≠ 46) : splitDots (joinDots ps) = ps := by
  induction ps with
  | nil => exact absurd rfl hne
  | cons p ps ih =>
    cases ps with
    | nil =>
      show splitDots (p ++ joinTail []) = [p]
      simpa [joinTail] using splitDots_no46 (h p (by simp))
    | cons q qs =>
      show splitDots (p ++ 46 :: joinDots (q :: qs)) = p :: q :: qs
      rw [splitDots_append_46 _ (h p (by simp)),
        ih (by simp) (fun x hx => h x (by simp [hx]))]

theorem mem_splitDots_no46 {l p : List Nat} {b : Nat} (hp : p ∈ splitDots l)
    (hb : b ∈ p) : b ≠ 46 := by
  induction l generalizing p with
  | nil =>
    simp [splitDots] at hp
    subst hp
    simp at hb
  | cons c rest ih =>
    obtain ⟨q, qs, hsd⟩ := splitDots_exists_cons rest
    by_cases hc : c = 46
    · subst hc
      rw [show splitDots (46 :: rest) = [] :: splitDots rest from by simp [splitDots]] at hp
      rcases List.mem_cons.mp hp with h | h
      · subst h; simp at hb
      · exact ih h hb
    · rw [show splitDots (c :: rest) = (c :: q) :: qs from by simp [splitDots, hc, hsd]] at hp
      rcases List.mem_cons.mp hp with h | h
      · subst h
        rcases List.mem_cons.mp hb with h1 | h1
        · exact h1 ▸ hc
        · exact ih (by rw [hsd]; exact List.mem_cons_self q qs) h1
      · exact ih (by rw [hsd]; exact List.mem_cons_of_mem q h) hb

theorem mem_joinDots_of_mem {ps : List (List Nat)} {p : List Nat} (hp : p ∈ ps)
    {b : Nat} (hb : b ∈ p) : b ∈ joinDots ps := by
  induction ps with
  | nil => simp at hp
  | cons q qs ih =>
    show b ∈ q ++ joinTail qs
    rcases List.mem_cons.mp hp with h | h
    · subst h; exact List.mem_append_left _ hb
    · cases qs with
      | nil => simp at h
      | cons r rs =>
        apply List.mem_append_right
        rw [joinTail_cons]
        exact List.mem_cons_of_mem _ (ih h)

theorem mem_joinDots_cases {ps : List (List Nat)} {b : Nat} (hb : b ∈ joinDots ps) :
    b = 46 ∨ ∃ p ∈ ps, b ∈ p := by
  induction ps with
  | nil => simp [joinDots] at hb
  | cons q qs ih =>
    have hb' : b ∈ q ++ joinTail qs := hb
    rcases List.mem_append.mp hb' with h | h
    · exact Or.inr ⟨q, by simp, h⟩
    · cases qs with
      | nil => simp [joinTail] at h
      | cons r rs =>
        rw [joinTail_cons] at h
        rcases List.mem_cons.mp h with h1 | h1
        · exact Or.inl h1
        · rcases ih h1 with h2 | ⟨p, hp, hbp⟩
          · exact Or.inl h2
          · exact Or.inr ⟨p, List.mem_cons_of_mem _ hp, hbp⟩

/-! ### The winnow parser accepts exactly the dot-grammar -/

theorem dropWhile_length_le (p : Nat → Bool) (l : List Nat) :
    (l.dropWhile p).length ≤ l.length := by
  induction l with
  | nil => simp
  | cons b rest ih =>
    by_cases hb : p b
    · rw [List.dropWhile_cons_of_pos hb]
      exact Nat.le_trans ih (by simp)
    · rw [List.dropWhile_cons_of_neg hb]

theorem parseElement_some_length {first sub : Nat → Bool} {l r : List Nat}
    (h : parseElement first sub l = some r) : r.length < l.length := by
  cases l with
  | nil => simp [parseElement] at h
  | cons b rest =>
    simp only [parseElement] at h
    by_cases hb : first b
    · rw [if_pos hb] at h
      have hr : r = rest.dropWhile sub := by simpa using h.symm
      calc r.length ≤ rest.length := hr ▸ dropWhile_length_le sub rest
        _ < (b :: rest).length := by simp [Nat.lt_succ_self]
    · rw [if_neg hb] at h
      exact absurd h (by simp)

theorem dropWhile_append_all {sub : Nat → Bool} {xs : List Nat} (ys : List Nat)
    (h : ∀ b ∈ xs, sub b = true) :
    (xs ++ ys).dropWhile sub = ys.dropWhile sub := by
  induction xs with
  | nil => rfl
  | cons x xs ih =>
    have hx : sub x = true := h x (by simp)
    show ((x :: (xs ++ ys)).dropWhile sub) = _
    rw [List.dropWhile_cons_of_pos hx]
    exact ih (fun b hb => h b (by simp [hb]))

theorem parseElement_append {first sub : Nat → Bool} {p : List Nat}
    (h : elemMatches first sub p = true) (r : List Nat) :
    parseElement first sub (p ++ r) = some (r.dropWhile sub) := by
  cases p with
  | nil => simp [elemMatches] at h
  | cons b t =>
    simp only [elemMatches, Bool.and_eq_true] at h
    obtain ⟨hb, ht⟩ := h
    show parseElement first sub (b :: (t ++ r)) = _
    simp only [parseElement, if_pos hb]
    rw [dropWhile_append_all r (by simpa using ht)]

theorem dropWhile_joinTail {sub : Nat → Bool} (hs : sub 46 = false)
    (ps : List (List Nat)) : (joinTail ps).dropWhile sub = joinTail ps := by
  cases ps with
  | nil => rfl
  | cons p qs =>
    show ((46 :: (p ++ joinTail qs)).dropWhile sub) = _
    rw [List.dropWhile_cons_of_neg (by simp [hs])]
    rfl

theorem sepTailF_nil (first sub : Nat → Bool) (sep : Nat) (fuel : Nat) :
    sepTailF first sub sep fuel [] = (0, []) := by
  cases fuel <;> rfl

theorem sepTailF_joinTail {first sub : Nat → Bool} (hs : sub 46 = false)
    {ps : List (List Nat)} (hall : ∀ p ∈ ps, elemMatches first sub p = true) :
    ∀ fuel, (joinTail ps).length ≤ fuel →
      sepTailF first sub 46 fuel (joinTail ps) = (ps.length, []) := by
  induction ps with
  | nil => intro fuel _; exact sepTailF_nil first sub 46 fuel
  | cons p qs ih =>
    intro fuel hfuel
    have hlen : (joinTail (p :: qs)).length = 1 + p.length + (joinTail qs).length := by
      simp [joinTail]
      omega
    obtain ⟨f, rfl⟩ : ∃ f, fuel = f + 1 := by
      cases fuel with
      | zero => rw [hlen] at hfuel; omega
      | succ f => exact ⟨f, rfl⟩
    show sepTailF first sub 46 (f + 1) (46 :: (p ++ joinTail qs)) = _
    rw [show sepTailF first sub 46 (f + 1) (46 :: (p ++ joinTail qs)) =
        (if (46 : Nat) = 46 then
          match parseElement first sub (p ++ joinTail qs) with
          | some rest2 =>
            ((sepTailF first sub 46 f rest2).1 + 1, (sepTailF first sub 46 f rest2).2)
          | none => (0, 46 :: (p ++ joinTail qs))
        else (0, 46 :: (p ++ joinTail qs))) from rfl]
    rw [if_pos rfl, parseElement_append (hall p (by simp)), dropWhile_joinTail hs]
    have hrec := ih (fun q hq => hall q (by simp [hq])) f (by rw [hlen] at hfuel; omega)
    simp [hrec]

theorem parseElement_some_decomp {first sub : Nat → Bool} {l r : List Nat}
    (h : parseElement first sub l = some r) :
    ∃ p, l = p ++ r ∧ elemMatches first sub p = true := by
  cases l with
  | nil => simp [parseElement] at h
  | cons b rest =>
    simp only [parseElement] at h
    by_cases hb : first b
    · rw [if_pos hb] at h
      have hr : r = rest.dropWhile sub := by simpa using h.symm
      refine ⟨b :: rest.takeWhile sub, ?_, ?_⟩
      · rw [hr]
        simp [List.takeWhile_append_dropWhile]
      · simp only [elemMatches, Bool.and_eq_true, if_pos hb]
        refine ⟨hb, ?_⟩
        simp only [List.all_eq_true]
        intro x hx
        exact List.mem_takeWhile_imp hx
    · rw [if_neg hb] at h
      exact absurd h (by simp)

theorem sepTailF_eq_nil_decomp {first sub : Nat → Bool} :
    ∀ fuel (input : List Nat) (n : Nat), input.length ≤ fuel →
      sepTailF first sub 46 fuel input = (n, []) →
      ∃ ps, ps.length = n ∧ (∀ p ∈ ps, elemMatches first sub p = true) ∧
        input = joinTail ps := by
  intro fuel
  induction fuel with
  | zero =>
    intro input n hlen h
    have hi : input = [] := List.length_eq_zero.mp (Nat.le_zero.mp hlen)
    subst hi
    rw [sepTailF_nil] at h
    have hn : n = 0 := (show (0 : Nat) = n from congrArg Prod.fst h).symm
    exact ⟨[], by simp [hn], by simp, rfl⟩
  | succ f ih =>
    intro input n hlen h
    cases input with
    | nil =>
      rw [sepTailF_nil] at h
      have hn : n = 0 := (show (0 : Nat) = n from congrArg Prod.fst h).symm
      exact ⟨[], by simp [hn], by simp, rfl⟩
    | cons b rest =>
      rw [show sepTailF first sub 46 (f + 1) (b :: rest) =
          (if b = 46 then
            match parseElement first sub rest with
            | some rest2 =>
              ((sepTailF first sub 46 f rest2).1 + 1, (sepTailF first sub 46 f rest2).2)
            | none => (0, b :: rest)
          else (0, b :: rest)) from rfl] at h
      by_cases hb : b = 46
      · rw [if_pos hb] at h
        cases hpe : parseElement first sub rest with
        | none =>
          rw [hpe] at h
          have := congrArg Prod.snd h
          simp at this
        | some rest2 =>
          rw [hpe] at h
          have h1 : (sepTailF first sub 46 f rest2).1 + 1 = n := congrArg Prod.fst h
          have h2 : (sepTailF first sub 46 f rest2).2 = [] := congrArg Prod.snd h
          have hlen2 : rest2.length ≤ f := by
            have hl1 := parseElement_some_length hpe
            have hl2 : rest.length ≤ f := by
              simpa using Nat.lt_succ_iff.mp (Nat.lt_of_lt_of_le (Nat.lt_succ_self _) (by simpa using hlen))
            omega
          obtain ⟨ps, hl, hall, hinput⟩ :=
            ih rest2 (sepTailF first sub 46 f rest2).1 hlen2 (by
              rw [show sepTailF first sub 46 f rest2 =
                ((sepTailF first sub 46 f rest2).1, (sepTailF first sub 46 f rest2).2) from rfl, h2])
          obtain ⟨p, hdecomp, helem⟩ := parseElement_some_decomp hpe
          refine ⟨p :: ps, by simp [hl, ← h1], ?_, ?_⟩
          · intro q hq
            rcases List.mem_cons.mp hq with hq1 | hq1
            · exact hq1 ▸ helem
            · exact hall q hq1
          · subst hb
            show 46 :: rest = joinTail (p :: ps)
            rw [show joinTail (p :: ps) = 46 :: (p ++ joinTail ps) from rfl,
              ← hinput, ← hdecomp]
      · rw [if_neg hb] at h
        have := congrArg Prod.snd h
        simp at this

theorem separated2_joinDots {first sub : Nat → Bool} (hs : sub 46 = false)
    {p : List Nat} {ps : List (List Nat)}
    (hp : elemMatches first sub p = true)
    (hall : ∀ q ∈ ps, elemMatches first sub q = true) (hps : ps ≠ []) :
    separated2 first sub 46 (joinDots (p :: ps)) = some [] := by
  rw [show joinDots (p :: ps) = p ++ joinTail ps from rfl]
  rw [separated2, parseElement_append hp, dropWhile_joinTail hs]
  show (if 2 ≤ (sepTailF first sub 46 (joinTail ps).length (joinTail ps)).1 + 1 then
      some (sepTailF first sub 46 (joinTail ps).length (joinTail ps)).2 else none) = some []
  rw [sepTailF_joinTail hs hall _ le_rfl]
  have h1 : 1 ≤ ps.length := by
    cases ps with
    | nil => exact absurd rfl hps
    | cons q qs => simp
  rw [if_pos (show 2 ≤ (ps.length, ([] : List Nat)).1 + 1 by simp only []; omega)]

theorem separated2_eq_dotGrammar {first sub : Nat → Bool}
    (hf : first 46 = false) (hs : sub 46 = false) (bytes : List Nat) :
    separated2 first sub 46 bytes = some [] ↔ dotGrammar first sub bytes = true := by
  constructor
  · intro h
    cases hpe : parseElement first sub bytes with
    | none =>
      rw [separated2, hpe] at h
      exact absurd h (by simp)
    | some rest =>
      rw [separated2, hpe] at h
      have h' : (if 2 ≤ (sepTailF first sub 46 rest.length rest).1 + 1 then
          some (sepTailF first sub 46 rest.length rest).2 else none) = some [] := h
      by_cases hcond : 2 ≤ (sepTailF first sub 46 rest.length rest).1 + 1
      · rw [if_pos hcond] at h'
        have h2 : (sepTailF first sub 46 rest.length rest).2 = [] := by simpa using h'
        obtain ⟨ps, hl, hall, hinput⟩ :=
          sepTailF_eq_nil_decomp rest.length rest (sepTailF first sub 46 rest.length rest).1
            le_rfl (by
              rw [show sepTailF first sub 46 rest.length rest =
                ((sepTailF first sub 46 rest.length rest).1,
                 (sepTailF first sub 46 rest.length rest).2) from rfl, h2])
        obtain ⟨p, hdecomp, helem⟩ := parseElement_some_decomp hpe
        have hbytes : bytes = joinDots (p :: ps) := by
          rw [hdecomp, hinput]
          rfl
        have hall' : ∀ q ∈ p :: ps, elemMatches first sub q = true := by
          intro q hq
          rcases List.mem_cons.mp hq with h1 | h1
          · exact h1 ▸ helem
          · exact hall q h1
        have hno46 : ∀ q ∈ p :: ps, ∀ b ∈ q, b ≠ 46 := by
          intro q hq b hb heq
          have hm := hall' q hq
          subst heq
          cases q with
          | nil => simp [elemMatches] at hm
          | cons c t =>
            simp only [elemMatches, Bool.and_eq_true, List.all_eq_true] at hm
            rcases List.mem_cons.mp hb with h1 | h1
            · rw [← h1] at hm
              exact absurd hm.1 (by simp [hf])
            · exact absurd (hm.2 46 h1) (by simp [hs])
        have hsd : splitDots bytes = p :: ps := by
          rw [hbytes]
          exact splitDots_joinDots (by simp) hno46
        simp only [dotGrammar, hsd, Bool.and_eq_true, decide_eq_true_eq, List.all_eq_true]
        constructor
        · have : ps.length = (sepTailF first sub 46 rest.length rest).1 := hl
          simp only [List.length_cons]
          omega
        · exact hall'
      · rw [if_neg hcond] at h'
        exact absurd h' (by simp)
  · intro h
    simp only [dotGrammar, Bool.and_eq_true, decide_eq_true_eq, List.all_eq_true] at h
    obtain ⟨hlen2, hall⟩ := h
    obtain ⟨p, ps, hsd⟩ := splitDots_exists_cons bytes
    have hbytes : bytes = joinDots (p :: ps) := by
      rw [← hsd, joinDots_splitDots]
    have hps : ps ≠ [] := by
      intro hcon
      rw [hsd, hcon] at hlen2
      simp at hlen2
    rw [hbytes]
    exact separated2_joinDots hs (hall p (by rw [hsd]; simp))
      (fun q hq => hall q (by rw [hsd]; exact List.mem_cons_of_mem _ hq)) hps

/-! ### Support lemmas for the claims -/

theorem utf8Scan_append {t : List Nat} (ht : utf8Valid t = true) :
    ∀ (s : List Nat) (exp : List (Nat × Nat)), utf8Scan s exp = true →
      utf8Scan (s ++ t) exp = true := by
  intro s
  induction s with
  | nil =>
    intro exp hexp
    have : exp = [] := by
      cases exp with
      | nil => rfl
      | cons e es => simp [utf8Scan] at hexp
    subst this
    simpa using ht
  | cons b rest ih =>
    intro exp hexp
    cases exp with
    | cons e es =>
      cases e with
      | mk lo hi =>
        simp only [utf8Scan, Bool.and_eq_true] at hexp
        show utf8Scan (b :: (rest ++ t)) ((lo, hi) :: es) = true
        simp only [utf8Scan, Bool.and_eq_true]
        exact ⟨hexp.1, ih es hexp.2⟩
    | nil =>
      simp only [utf8Scan] at hexp
      show utf8Scan (b :: (rest ++ t)) [] = true
      simp only [utf8Scan]
      cases hld : utf8Lead b with
      | none => rw [hld] at hexp; exact absurd hexp (by simp)
      | some exp2 =>
        rw [hld] at hexp
        show utf8Scan (rest ++ t) exp2 = true
        exact ih exp2 hexp

theorem utf8Valid_append {s t : List Nat} (hs : utf8Valid s = true)
    (ht : utf8Valid t = true) : utf8Valid (s ++ t) = true :=
  utf8Scan_append ht s [] hs

theorem lengthGuard_iff (o : Option (List Nat)) (n : List Nat) :
    lengthGuard o n = true ↔ (o = some [] ∧ n.length ≤ 255) := by
  cases o with
  | none => simp [lengthGuard]
  | some r =>
    cases r with
    | nil =>
      show (!(255 < n.length)) = true ↔ _
      simp [Nat.not_lt]
    | cons x xs => simp [lengthGuard]

theorem mem_of_mem_splitDots {l p : List Nat} {b : Nat} (hp : p ∈ splitDots l)
    (hb : b ∈ p) : b ∈ l :=
  joinDots_splitDots l ▸ mem_joinDots_of_mem hp hb

theorem ifaceFirst_class {b : Nat} (h : ifaceFirst b = true) :
    is_alphanum b = true ∨ b = 95 := by
  simp only [ifaceFirst, Bool.or_eq_true, beq_iff_eq] at h
  rcases h with h | h
  · exact Or.inl (by simp [is_alphanum, h])
  · exact Or.inr h

theorem ifaceSub_class {b : Nat} (h : ifaceSub b = true) :
    is_alphanum b = true ∨ b = 95 := by
  simp only [ifaceSub, Bool.or_eq_true, beq_iff_eq] at h
  exact h

theorem ifaceSub_of_class {b : Nat} (h : is_alphanum b = true ∨ b = 95 ∨ b = 46)
    (h46 : b ≠ 46) : ifaceSub b = true := by
  simp only [ifaceSub, Bool.or_eq_true, beq_iff_eq]
  rcases h with h | h | h
  · exact Or.inl h
  · exact Or.inr h
  · exact absurd h h46

theorem class_ne_45 {b : Nat} (h : is_alphanum b = true ∨ b = 95 ∨ b = 46) :
    b ≠ 45 := by
  intro heq
  subst heq
  rcases h with h | h | h
  · exact absurd h (by decide)
  · exact absurd h (by decide)
  · exact absurd h (by decide)

theorem elemMatches_self_iff (c : Nat → Bool) (p : List Nat) :
    elemMatches c c p = true ↔ (p ≠ [] ∧ ∀ b ∈ p, c b = true) := by
  cases p with
  | nil => simp [elemMatches]
  | cons b t =>
    simp only [elemMatches, Bool.and_eq_true, List.all_eq_true]
    constructor
    · rintro ⟨h1, h2⟩
      refine ⟨by simp, ?_⟩
      intro x hx
      rcases List.mem_cons.mp hx with h | h
      · exact h ▸ h1
      · exact h2 x h
    · rintro ⟨-, h2⟩
      exact ⟨h2 b (by simp), fun x hx => h2 x (by simp [hx])⟩

theorem read_u32_encode_u32 (n : Nat) (rest : List Nat) :
    read_u32_ne (encode_u32 n ++ rest) = n % 4294967296 := by
  show read_u32_ne (n % 256 :: (n / 256 % 256 :: (n / 65536 % 256 ::
    (n / 16777216 % 256 :: rest)))) = n % 4294967296
  show n % 256 + 256 * (n / 256 % 256) + 65536 * (n / 65536 % 256) +
    16777216 * (n / 16777216 % 256) = n % 4294967296
  omega

theorem isPrefixOf_iff_exists {l₁ l₂ : List Nat} :
    l₁.isPrefixOf l₂ = true ↔ ∃ t, l₁ ++ t = l₂ := by
  induction l₁ generalizing l₂ with
  | nil => simp [List.isPrefixOf]
  | cons a t₁ ih =>
    cases l₂ with
    | nil => simp [List.isPrefixOf]
    | cons b t₂ =>
      simp only [List.isPrefixOf, Bool.and_eq_true, beq_iff_eq, ih]
      constructor
      · rintro ⟨rfl, t, rfl⟩
        exact ⟨t, rfl⟩
      · rintro ⟨t, ht⟩
        injection ht with h1 h2
        exact ⟨h1, t, h2⟩

/-! ## The claims -/

/-- C3: the interface-name validator accepts a byte string if and only if it
consists of two or more dot-separated elements, every byte is ASCII
alphanumeric, `_` or the separating `.`, each element is non-empty and starts
with a non-digit (letter or `_`), `-` never appears, the input is non-empty,
and its length is at most 255 bytes. -/
theorem interface_name_validate_bytes_iff (bytes : List Nat) :
    interface_name_validate_bytes bytes = true ↔
      (bytes ≠ [] ∧ bytes.length ≤ 255 ∧
       (∀ b ∈ bytes, is_alphanum b = true ∨ b = 95 ∨ b = 46) ∧
       (∀ b ∈ bytes, b ≠ 45) ∧
       2 ≤ (splitDots bytes).length ∧
       (∀ p ∈ splitDots bytes, p ≠ [] ∧ (is_alpha p.headI = true ∨ p.headI = 95))) := by
  rw [interface_name_validate_bytes, lengthGuard_iff,
    separated2_eq_dotGrammar (by decide) (by decide)]
  simp only [dotGrammar, Bool.and_eq_true, decide_eq_true_eq, List.all_eq_true]
  constructor
  · rintro ⟨⟨h2, hall⟩, hlen⟩
    have hclass : ∀ b ∈ bytes, is_alphanum b = true ∨ b = 95 ∨ b = 46 := by
      intro b hb
      have hb' : b ∈ joinDots (splitDots bytes) := by
        rw [joinDots_splitDots]
        exact hb
      rcases mem_joinDots_cases hb' with h46 | ⟨p, hp, hbp⟩
      · exact Or.inr (Or.inr h46)
      · have hm := hall p hp
        cases p with
        | nil => simp [elemMatches] at hm
        | cons c t =>
          simp only [elemMatches, Bool.and_eq_true, List.all_eq_true] at hm
          rcases List.mem_cons.mp hbp with hh | hh
          · subst hh
            rcases ifaceFirst_class hm.1 with h | h
            · exact Or.inl h
            · exact Or.inr (Or.inl h)
          · rcases ifaceSub_class (hm.2 b hh) with h | h
            · exact Or.inl h
            · exact Or.inr (Or.inl h)
    refine ⟨?_, hlen, hclass, fun b hb => class_ne_45 (hclass b hb), h2, ?_⟩
    · intro hcon
      subst hcon
      simp [splitDots] at h2
    · intro p hp
      have hm := hall p hp
      cases p with
      | nil => simp [elemMatches] at hm
      | cons c t =>
        simp only [elemMatches, Bool.and_eq_true] at hm
        refine ⟨by simp, ?_⟩
        show is_alpha (c :: t).headI = true ∨ (c :: t).headI = 95
        simp only [List.headI]
        have h1 := hm.1
        simp only [ifaceFirst, Bool.or_eq_true, beq_iff_eq] at h1
        exact h1
  · rintro ⟨hne, hlen, hclass, hdash, h2, helem⟩
    refine ⟨⟨h2, ?_⟩, hlen⟩
    intro p hp
    obtain ⟨hpne, hhead⟩ := helem p hp
    cases p with
    | nil => exact absurd rfl hpne
    | cons c t =>
      simp only [elemMatches, Bool.and_eq_true, List.all_eq_true]
      constructor
      · simp only [List.headI] at hhead
        simp only [ifaceFirst, Bool.or_eq_true, beq_iff_eq]
        exact hhead
      · intro x hx
        have hxb : x ∈ bytes := mem_of_mem_splitDots hp (by simp [hx])
        exact ifaceSub_of_class (hclass x hxb) (mem_splitDots_no46 hp (by simp [hx]))

/-- Witness for C3 at a concrete accepted name (`a.b`). -/
theorem interface_name_validate_bytes_iff_witness :
    interface_name_validate_bytes [97, 46, 98] = true :=
  (interface_name_validate_bytes_iff [97, 46, 98]).mpr (by decide)

/-- C4: the unique-bus-name validator accepts a byte string if and only if it
is either the literal `org.freedesktop.DBus` or a `:` followed by two or more
`.`-separated elements, each element non-empty over `[A-Za-z0-9_-]` (elements
may start with a digit), and the whole input is at most 255 bytes. -/
theorem unique_name_validate_bytes_iff (bytes : List Nat) :
    unique_name_validate_bytes bytes = true ↔
      ((bytes = busLiteral ∨
        ∃ rest, bytes = 58 :: rest ∧ 2 ≤ (splitDots rest).length ∧
          ∀ p ∈ splitDots rest, p ≠ [] ∧ ∀ b ∈ p, uniqueChar b = true) ∧
       bytes.length ≤ 255) := by
  rw [show unique_name_validate_bytes bytes = lengthGuard
      (if busLiteral.isPrefixOf bytes then some (bytes.drop busLiteral.length)
       else
         match bytes with
         | b :: rest => if b = 58 then separated2 uniqueChar uniqueChar 46 rest else none
         | [] => none) bytes from rfl, lengthGuard_iff]
  by_cases hpre : busLiteral.isPrefixOf bytes = true
  · rw [if_pos hpre]
    obtain ⟨t, ht⟩ := isPrefixOf_iff_exists.mp hpre
    have hdrop : bytes.drop busLiteral.length = t := by
      rw [← ht]
      simp
    rw [hdrop]
    constructor
    · rintro ⟨hsome, hlen⟩
      have ht0 : t = [] := by simpa using hsome
      refine ⟨Or.inl ?_, hlen⟩
      rw [← ht, ht0]
      simp
    · rintro ⟨hor, hlen⟩
      refine ⟨?_, hlen⟩
      rcases hor with heq | ⟨rest, hrest, -, -⟩
      · have hlit : busLiteral ++ t = busLiteral := by rw [ht, heq]
        have hl := congrArg List.length hlit
        simp at hl
        simp [hl]
      · rw [hrest] at ht
        have hh := congrArg List.headI ht
        simp [busLiteral] at hh
  · rw [if_neg hpre]
    have hneqlit : bytes ≠ busLiteral := by
      intro hcon
      rw [hcon] at hpre
      exact hpre (by decide)
    cases bytes with
    | nil =>
      show ((none : Option (List Nat)) = some [] ∧ _) ↔ _
      constructor
      · rintro ⟨hcon, -⟩
        exact absurd hcon (by simp)
      · rintro ⟨hor, -⟩
        rcases hor with h | ⟨rest, h, -, -⟩ <;> simp [busLiteral] at h
    | cons b rest =>
      show ((if b = 58 then separated2 uniqueChar uniqueChar 46 rest else none) = some []
          ∧ _) ↔ _
      by_cases hb : b = 58
      · subst hb
        rw [if_pos rfl, separated2_eq_dotGrammar (by decide) (by decide)]
        simp only [dotGrammar, Bool.and_eq_true, decide_eq_true_eq, List.all_eq_true]
        constructor
        · rintro ⟨⟨h2, hall⟩, hlen⟩
          refine ⟨Or.inr ⟨rest, rfl, h2, ?_⟩, hlen⟩
          intro p hp
          exact (elemMatches_self_iff uniqueChar p).mp (hall p hp)
        · rintro ⟨hor, hlen⟩
          rcases hor with h | ⟨rest2, heq, h2, hel⟩
          · exact absurd h hneqlit
          · have hr : rest2 = rest := by
              injection heq with h1 h2'
              exact h2'.symm
            subst hr
            refine ⟨⟨h2, ?_⟩, hlen⟩
            intro p hp
            exact (elemMatches_self_iff uniqueChar p).mpr (hel p hp)
      · rw [if_neg hb]
        constructor
        · rintro ⟨hcon, -⟩
          exact absurd hcon (by simp)
        · rintro ⟨hor, -⟩
          rcases hor with h | ⟨rest2, heq, -, -⟩
          · exact absurd h hneqlit
          · injection heq with h1 h2'
            exact absurd h1 hb

/-- Witness for C4 at the concrete unique name `:1.2`. -/
theorem unique_name_validate_bytes_iff_witness :
    unique_name_validate_bytes [58, 49, 46, 50] = true :=
  (unique_name_validate_bytes_iff [58, 49, 46, 50]).mpr
    ⟨Or.inr ⟨[49, 46, 50], rfl, by decide, by decide⟩, by decide⟩

/-- C5: the well-known-bus-name validator accepts exactly the inputs of the
interface-name grammar extended by allowing `-` as an element character —
including as the first character of an element. -/
theorem well_known_name_validate_bytes_iff (bytes : List Nat) :
    well_known_name_validate_bytes bytes = true ↔
      (dotGrammar (fun b => ifaceFirst b || b == 45) (fun b => ifaceSub b || b == 45)
          bytes = true ∧
       bytes.length ≤ 255) := by
  rw [well_known_name_validate_bytes, lengthGuard_iff,
    separated2_eq_dotGrammar (by decide) (by decide)]
  rw [show wkFirst = fun b => ifaceFirst b || b == 45 from rfl,
    show wkSub = fun b => ifaceSub b || b == 45 from rfl]

/-- Witness for C5 at a concrete name (`-a.b`) that only the extended
grammar accepts. -/
theorem well_known_name_validate_bytes_iff_witness :
    well_known_name_validate_bytes [45, 97, 46, 98] = true :=
  (well_known_name_validate_bytes_iff [45, 97, 46, 98]).mpr (by decide)

set_option maxRecDepth 8000 in
/-- C6: for every name kind with a validator (interface, error, member,
unique, well-known, property), an otherwise-valid name of exactly 255 bytes
is accepted and one of 256 bytes is rejected. Each 256-byte reject is
otherwise valid: the corresponding grammar without the length cap still
matches it (`dotGrammar` / `parseElement` / non-emptiness conjuncts). -/
theorem name_validators_length_boundary :
    interface_name_validate_bytes (List.replicate 253 97 ++ [46, 98]) = true ∧
    interface_name_validate_bytes (List.replicate 254 97 ++ [46, 98]) = false ∧
    dotGrammar ifaceFirst ifaceSub (List.replicate 254 97 ++ [46, 98]) = true ∧
    (error_name_validate (List.replicate 253 97 ++ [46, 98])).isOk = true ∧
    (error_name_validate (List.replicate 254 97 ++ [46, 98])).isOk = false ∧
    member_name_validate_bytes (List.replicate 255 97) = true ∧
    member_name_validate_bytes (List.replicate 256 97) = false ∧
    parseElement ifaceFirst ifaceSub (List.replicate 256 97) = some [] ∧
    unique_name_validate_bytes (58 :: (List.replicate 252 97 ++ [46, 98])) = true ∧
    unique_name_validate_bytes (58 :: (List.replicate 253 97 ++ [46, 98])) = false ∧
    dotGrammar uniqueChar uniqueChar (List.replicate 253 97 ++ [46, 98]) = true ∧
    well_known_name_validate_bytes (List.replicate 253 97 ++ [46, 98]) = true ∧
    well_known_name_validate_bytes (List.replicate 254 97 ++ [46, 98]) = false ∧
    dotGrammar wkFirst wkSub (List.replicate 254 97 ++ [46, 98]) = true ∧
    (ensure_correct_property_name (List.replicate 255 97)).isOk = true ∧
    (ensure_correct_property_name (List.replicate 256 97)).isOk = false := by
  decide

/-- C7: the error-name validator and the interface-name validator are
extensionally equal — the same inputs succeed — and when they reject, both
reject with the `InvalidName` error kind. -/
theorem error_name_validate_eq_interface (bytes : List Nat) :
    ((error_name_validate bytes = .ok ()) ↔ (interface_name_validate bytes = .ok ())) ∧
    ((error_name_validate bytes).isOk || isInvalidName (error_name_validate bytes)) = true ∧
    ((interface_name_validate bytes).isOk || isInvalidName (interface_name_validate bytes)) = true := by
  by_cases h : interface_name_validate_bytes bytes = true
  · rw [error_name_validate, interface_name_validate, if_pos h, if_pos h]
    simp [Except.isOk, Except.toBool]
  · rw [error_name_validate, interface_name_validate, if_neg h, if_neg h]
    simp [Except.isOk, Except.toBool, isInvalidName]

/-- Witness for C7 at a concrete input. -/
theorem error_name_validate_eq_interface_witness :
    (error_name_validate [97, 46, 98] = .ok ()) ↔
      (interface_name_validate [97, 46, 98] = .ok ()) :=
  (error_name_validate_eq_interface [97, 46, 98]).1

/-- C9: property-name validation is only a length check — for every string
(a valid-UTF-8 byte buffer), constructing a `PropertyName` succeeds if and
only if the string is non-empty and at most 255 bytes long; the bytes
themselves (dots, dashes, colons, non-ASCII sequences) are unconstrained. -/
theorem ensure_correct_property_name_iff (name : List Nat)
    (h : utf8Valid name = true) :
    (ensure_correct_property_name name).isOk = true ↔
      (name ≠ [] ∧ name.length ≤ 255) := by
  rw [ensure_correct_property_name]
  cases name with
  | nil => simp [Except.isOk, Except.toBool]
  | cons b t =>
    by_cases hl : 255 < (b :: t).length
    · rw [if_neg (by simp), if_pos hl]
      constructor
      · intro hcon
        exact absurd hcon (by simp [Except.isOk, Except.toBool])
      · rintro ⟨-, hcon⟩
        omega
    · rw [if_neg (by simp), if_neg hl]
      exact ⟨fun _ => ⟨by simp, by omega⟩, fun _ => rfl⟩

/-- Witness for C9 at the one-byte name `a`. -/
theorem ensure_correct_property_name_iff_witness :
    (ensure_correct_property_name [97]).isOk = true :=
  (ensure_correct_property_name_iff [97] (by decide)).mpr (by decide)

/-- C8: the `Variant` typed accessors fail with `IncorrectType` whenever
asked for a type other than the one in the variant's signature: `get_string`
errors when the signature is none of `s`, `o`, `g`, and `get_u32` errors
when the signature is not `u`. -/
theorem variant_accessors_incorrect_type (sig : String) (val : List Nat) :
    (¬(sig = "s" ∨ sig = "o" ∨ sig = "g") →
      Variant.get_string ⟨sig, val⟩ = .error .IncorrectType) ∧
    (sig ≠ "u" → Variant.get_u32 ⟨sig, val⟩ = .error .IncorrectType) := by
  constructor
  · intro h
    push_neg at h
    simp [Variant.get_string, h.1, h.2.1, h.2.2]
  · intro h
    simp [Variant.get_u32, h]

/-- Witness for C8: a `u`-typed variant refuses `get_string`, an `s`-typed
variant refuses `get_u32`. -/
theorem variant_accessors_incorrect_type_witness :
    Variant.get_string ⟨"u", [0, 0, 0, 0]⟩ = .error .IncorrectType ∧
    Variant.get_u32 ⟨"s", [1, 0, 0, 0, 97, 0]⟩ = .error .IncorrectType :=
  ⟨(variant_accessors_incorrect_type "u" [0, 0, 0, 0]).1 (by decide),
   (variant_accessors_incorrect_type "s" [1, 0, 0, 0, 97, 0]).2 (by decide)⟩

/-- C1 fails as stated: already for the one-byte string `a`, the round trip
through `from_string` and `get_string` returns `a\0` — the original string
with the encoder's NUL terminator still attached — not `a`. -/
theorem get_string_roundtrip_counterexample :
    Variant.get_string (Variant.from_string [97]) ≠ Except.ok [97] ∧
    Variant.get_string (Variant.from_string [97]) = Except.ok [97, 0] := by
  decide

/-- C1 (amended): for every string `s`, reading a variant built by
`from_string(s)` / `from_object_path(s)` / `from_signature_string(s)` back
with `get_string` returns `Ok(s ++ "\0")`: the original string with the
trailing NUL byte appended, because the accessor slices off only the length
prefix and never strips the terminator. -/
theorem get_string_roundtrip_appends_nul (s : List Nat) (h : utf8Valid s = true) :
    Variant.get_string (Variant.from_string s) = .ok (s ++ [0]) ∧
    Variant.get_string (Variant.from_object_path s) = .ok (s ++ [0]) ∧
    Variant.get_string (Variant.from_signature_string s) = .ok (s ++ [0]) := by
  have hv : utf8Valid (s ++ [0]) = true := utf8Valid_append h (by decide)
  refine ⟨?_, ?_, ?_⟩
  · simp [Variant.get_string, Variant.from_string, encode_string, encode_u32,
      from_utf8_res, hv, List.append_assoc]
  · simp [Variant.get_string, Variant.from_object_path, encode_string, encode_u32,
      from_utf8_res, hv, List.append_assoc]
  · simp [Variant.get_string, Variant.from_signature_string, encode_signature,
      from_utf8_res, hv]

/-- Witness for the amended C1 at the one-byte string `a`. -/
theorem get_string_roundtrip_appends_nul_witness :
    Variant.get_string (Variant.from_string [97]) = .ok [97, 0] :=
  (get_string_roundtrip_appends_nul [97] (by decide)).1

/-- C2 fails as stated for `g`: the buffer `[1, b'u']` — a one-byte length
prefix and the content byte, ending exactly after the content with no NUL —
is accepted by `from_data`, not rejected with `InsufficientData`
(`copy_signature` requires only `length + 1` bytes). -/
theorem from_data_missing_nul_counterexample :
    Variant.from_data [1, 117] "g" = Except.ok ⟨"g", [1, 117]⟩ ∧
    Variant.from_data [1, 117] "g" ≠ Except.error VariantError.InsufficientData := by
  decide

/-- C2 (amended): for the `u32`-length-prefixed signatures `s` and `o`, a
buffer ending exactly after the length-prefixed content bytes (the trailing
NUL missing) makes `from_data` fail with `InsufficientData`; for `g` the
same shape of buffer is accepted, because `copy_signature` never demands the
NUL byte. -/
theorem from_data_missing_nul (content : List Nat)
    (h32 : content.length < 4294967296) :
    Variant.from_data (encode_u32 content.length ++ content) "s" =
      .error .InsufficientData ∧
    Variant.from_data (encode_u32 content.length ++ content) "o" =
      .error .InsufficientData ∧
    (content.length < 256 →
      Variant.from_data (content.length :: content) "g" =
        .ok ⟨"g", content.length :: content⟩) := by
  have hlen : (encode_u32 content.length ++ content).length = 4 + content.length := by
    simp [encode_u32]
    omega
  have hs : copy_string (encode_u32 content.length ++ content) =
      .error .InsufficientData := by
    simp only [copy_string, read_u32_encode_u32, hlen]
    rw [if_neg (by omega), if_pos (by omega)]
  refine ⟨?_, ?_, ?_⟩
  · simp [Variant.from_data, hs, Except.map]
  · simp [Variant.from_data, hs, Except.map]
  · intro h256
    have hg : copy_signature (content.length :: content) =
        .ok (content.length :: content) := by
      have hl : (content.length :: content).length = content.length + 1 := by simp
      simp only [copy_signature, hl, List.headI]
      rw [if_neg (by omega), if_neg (by omega)]
      rw [List.take_succ_cons, List.take_length]
    simp [Variant.from_data, hg, Except.map]

/-- Witness for the amended C2 at the one-byte content `u`. -/
theorem from_data_missing_nul_witness :
    Variant.from_data (encode_u32 1 ++ [117]) "s" = .error .InsufficientData :=
  (from_data_missing_nul [117] (by decide)).1

/-- C10: `from_data` never rejects trailing excess bytes. For each supported
signature, a buffer holding a complete encoded value followed by arbitrary
extra bytes is decoded successfully, to the same variant as the buffer
without the extra bytes, whose value is a prefix of the encoded value (for
`g` the decoder stops before the trailing NUL, hence `s.length :: s` and the
recorded equation with the full encoding). `VariantError` has no excess-data
constructor, so no such error can be returned. -/
theorem from_data_ignores_trailing_bytes (x : Nat) (s extra : List Nat)
    (h32 : s.length < 4294967296) :
    (Variant.from_data (encode_u32 x ++ extra) "u" = .ok ⟨"u", encode_u32 x⟩ ∧
     Variant.from_data (encode_u32 x) "u" = .ok ⟨"u", encode_u32 x⟩) ∧
    (Variant.from_data (encode_string s ++ extra) "s" = .ok ⟨"s", encode_string s⟩ ∧
     Variant.from_data (encode_string s) "s" = .ok ⟨"s", encode_string s⟩) ∧
    (Variant.from_data (encode_string s ++ extra) "o" = .ok ⟨"o", encode_string s⟩ ∧
     Variant.from_data (encode_string s) "o" = .ok ⟨"o", encode_string s⟩) ∧
    (s.length < 256 →
      Variant.from_data (encode_signature s ++ extra) "g" = .ok ⟨"g", s.length :: s⟩ ∧
      Variant.from_data (encode_signature s) "g" = .ok ⟨"g", s.length :: s⟩ ∧
      (s.length :: s) ++ [0] = encode_signature s) := by
  have hu : ∀ r : List Nat, copy_u32 (encode_u32 x ++ r) = .ok (encode_u32 x) := by
    intro r
    simp only [copy_u32]
    rw [if_neg (by simp [encode_u32])]
    rfl
  have h5 : (encode_string s).length = s.length + 5 := by
    simp [encode_string, encode_u32]
  have hstr : ∀ r : List Nat, copy_string (encode_string s ++ r) = .ok (encode_string s) := by
    intro r
    have hread : read_u32_ne (encode_string s ++ r) = s.length % 4294967296 := by
      rw [encode_string, List.append_assoc, List.append_assoc]
      exact read_u32_encode_u32 s.length _
    have hlen : (encode_string s ++ r).length = s.length + 5 + r.length := by
      simp [h5]
    simp only [copy_string, hread, hlen, Nat.mod_eq_of_lt h32]
    rw [if_neg (by omega), if_neg (by omega)]
    rw [show s.length + 5 = (encode_string s).length from h5.symm, List.take_left]
  have hu0 : copy_u32 (encode_u32 x) = .ok (encode_u32 x) := by
    have := hu []
    rwa [List.append_nil] at this
  have hstr0 : copy_string (encode_string s) = .ok (encode_string s) := by
    have := hstr []
    rwa [List.append_nil] at this
  refine ⟨⟨?_, ?_⟩, ⟨?_, ?_⟩, ⟨?_, ?_⟩, ?_⟩
  · simp [Variant.from_data, hu extra, Except.map]
  · simp [Variant.from_data, hu0, Except.map]
  · simp [Variant.from_data, hstr extra, Except.map]
  · simp [Variant.from_data, hstr0, Except.map]
  · simp [Variant.from_data, hstr extra, Except.map]
  · simp [Variant.from_data, hstr0, Except.map]
  · intro h256
    have hmod : s.length % 256 = s.length := Nat.mod_eq_of_lt h256
    have hshape : ∀ r : List Nat,
        encode_signature s ++ r = s.length :: (s ++ ([0] ++ r)) := by
      intro r
      simp [encode_signature, hmod]
    have hsig : ∀ r : List Nat,
        copy_signature (encode_signature s ++ r) = .ok (s.length :: s) := by
      intro r
      rw [hshape r]
      have hl : (s.length :: (s ++ ([0] ++ r))).length = s.length + 2 + r.length := by
        simp
        omega
      simp only [copy_signature, hl, List.headI]
      rw [if_neg (by omega), if_neg (by omega)]
      rw [List.take_succ_cons, List.take_left]
    have hsig0 : copy_signature (encode_signature s) = .ok (s.length :: s) := by
      have := hsig []
      rwa [List.append_nil] at this
    refine ⟨?_, ?_, ?_⟩
    · simp [Variant.from_data, hsig extra, Except.map]
    · simp [Variant.from_data, hsig0, Except.map]
    · simp [encode_signature, hmod]

/-- Witness for C10 with concrete values and two junk trailing bytes. -/
theorem from_data_ignores_trailing_bytes_witness :
    Variant.from_data (encode_u32 7 ++ [9, 9]) "u" = .ok ⟨"u", encode_u32 7⟩ ∧
    Variant.from_data (encode_string [117] ++ [9, 9]) "s" = .ok ⟨"s", encode_string [117]⟩ ∧
    Variant.from_data (encode_signature [117] ++ [9, 9]) "g" = .ok ⟨"g", [1, 117]⟩ :=
  ⟨((from_data_ignores_trailing_bytes 7 [117] [9, 9] (by decide)).1).1,
   ((from_data_ignores_trailing_bytes 7 [117] [9, 9] (by decide)).2.1).1,
   ((from_data_ignores_trailing_bytes 7 [117] [9, 9] (by decide)).2.2.2 (by decide)).1⟩

/-! ### Sanity checks on concrete inputs (not tied to any claim) -/

example : interface_name_validate_bytes [97, 46, 98] = true := by decide

example : interface_name_validate_bytes [97] = false := by decide

example : interface_name_validate_bytes [97, 46] = false := by decide

example : interface_name_validate_bytes [97, 46, 46, 98] = false := by decide

example : interface_name_validate_bytes [97, 46, 49] = false := by decide

example : interface_name_validate_bytes [97, 45, 46, 98] = false := by decide

example : well_known_name_validate_bytes [97, 45, 46, 98] = true := by decide

example : well_known_name_validate_bytes [45, 46, 98] = true := by decide

example : unique_name_validate_bytes busLiteral = true := by decide

example : unique_name_validate_bytes (58 :: [49, 46, 50]) = true := by decide

example : unique_name_validate_bytes [49, 46, 50] = false := by decide

example : unique_name_validate_bytes (busLiteral ++ [97]) = false := by decide

example : member_name_validate_bytes [97, 95, 48] = true := by decide

example : member_name_validate_bytes [49, 97] = false := by decide

example : splitDots [97, 46, 98, 98, 46] = [[97], [98, 98], []] := by decide

example : dotGrammar ifaceFirst ifaceSub [97, 46, 98] = true := by decide

example : Variant.from_data [7, 0, 0, 0] "u" = .ok { signature := "u", value := [7, 0, 0, 0] } := by
  decide

example : Variant.from_data [1, 0, 0, 0, 97, 0] "s" =
    .ok { signature := "s", value := [1, 0, 0, 0, 97, 0] } := by decide

example : Variant.from_data [1, 0, 0, 0, 97] "s" = .error .InsufficientData := by decide

example : Variant.from_data [] "b" = .error .UnsupportedType := by decide

example : Variant.get_string (Variant.from_string [97, 98]) = .ok [97, 98, 0] := by decide

example : utf8Valid [0xC3, 0xA9] = true := by decide

example : utf8Valid [0xC3] = false := by decide

example : utf8Valid [0xED, 0xA0, 0x80] = false := by decide
